import Mathlib

/-!
Shallow embedding of the `esp-alloc` block allocator (`src/lib.rs`) and a
verification of its specification.

The allocator keeps a static table `ALLOCATIONS : [Option<Allocation>; 128]`
together with a cursor `ALLOC_INDEX : isize` (initially `-1`).  `malloc`
first-fit-scans the table for a freed block of sufficient size, otherwise bump
allocates past the highest active block; `free` scans for the entry whose
address matches, removing it when it is the topmost entry and marking it free
otherwise; `calloc` is `malloc` of the wrapping 32-bit product followed by a
byte-by-byte zero fill.

Machine integers are modelled as `Nat` with explicit `% 2 ^ 32` where u32
overflow matters; pointers are `Nat` addresses (`0` is the null pointer), with
the linker symbol `_heap_start` passed in as a `heapStart` parameter.  Panics
of the Rust code (`Option::unwrap` on `None`, array index out of bounds, the
explicit `panic!`) are modelled as distinguished outcome constructors.
-/

set_option maxHeartbeats 4000000
set_option maxRecDepth 100000

namespace EspAlloc

/-- Capacity of the static allocation table: `ALLOCATIONS: [Option<Allocation>; 128]`. -/
def CAP : Nat := 128

/-- One bookkeeping record, from `struct Allocation { address, size, free }`. -/
structure Allocation where
  address : Nat
  size : Nat
  free : Bool
deriving DecidableEq, Repr

/-- The allocator's process-wide state: the table `ALLOCATIONS` and the cursor
`ALLOC_INDEX` (an `isize`, hence `Int`). -/
structure HeapState where
  table : List (Option Allocation)
  allocIndex : Int
deriving DecidableEq, Repr

/-- Initial state: `[None; 128]` and `ALLOC_INDEX = -1`. -/
def initState : HeapState := ⟨List.replicate CAP none, -1⟩

/-- `let aligned_size = size + if size % 8 != 0 { 8 - size % 8 } else { 0 }` on `u32`:
the addition wraps modulo `2 ^ 32`. -/
def alignedSize (size : Nat) : Nat :=
  (size + (if size % 8 ≠ 0 then 8 - size % 8 else 0)) % 2 ^ 32

/-- The reuse scan of `malloc`: iterate over the table from index 0 upward and
return the index and record of the first entry that is marked free and whose
stored size is at least `sz` (`allocation.free && aligned_size <= allocation.size`);
`None` slots are skipped. -/
def findFreeBlock : List (Option Allocation) → Nat → Option (Nat × Allocation)
  | [], _ => none
  | none :: rest, sz => (findFreeBlock rest sz).map (fun p => (p.1 + 1, p.2))
  | some a :: rest, sz =>
    if a.free = true ∧ sz ≤ a.size then some (0, a)
    else (findFreeBlock rest sz).map (fun p => (p.1 + 1, p.2))

/-- The fitting predicate of the reuse scan. -/
def fits (sz : Nat) (a : Allocation) : Prop := a.free = true ∧ sz ≤ a.size

instance (sz : Nat) (a : Allocation) : Decidable (fits sz a) := by
  unfold fits; infer_instance

/-- Result of one `malloc` call.  `ok s addr` is a normal return; `oobWrite i`
models the out-of-bounds table write `ALLOCATIONS[i]` with `i ≥ 128` (a panic
at runtime); `unwrapNone` models `Option::unwrap` panicking on an empty slot at
`ALLOCATIONS[ALLOC_INDEX]`. -/
inductive MallocOutcome where
  | ok (s : HeapState) (addr : Nat)
  | oobWrite (idx : Nat)
  | unwrapNone
deriving DecidableEq, Repr

/-- The bump-allocation path of `malloc`, taken when no freed block was reused:
the candidate address is `heapStart` if `ALLOC_INDEX == -1`, otherwise the
highest active entry's address plus its size; the new record is stored at
`ALLOC_INDEX + 1` and the cursor incremented. -/
def appendBlock (heapStart : Nat) (s : HeapState) (al : Nat) : MallocOutcome :=
  if s.allocIndex = -1 then
    .ok ⟨s.table.set 0 (some ⟨heapStart, al, false⟩), 0⟩ heapStart
  else
    match s.table[s.allocIndex.toNat]? with
    | some (some top) =>
      if s.allocIndex.toNat + 1 < CAP then
        .ok ⟨s.table.set (s.allocIndex.toNat + 1) (some ⟨top.address + top.size, al, false⟩),
             s.allocIndex + 1⟩ (top.address + top.size)
      else .oobWrite (s.allocIndex.toNat + 1)
    | _ => .unwrapNone

/-- `pub unsafe extern "C" fn malloc(size: u32) -> *const u8`.

First the reuse scan clears the free flag of the first fitting freed entry and
remembers its address in `reused` (initially the null pointer); if `reused` is
still null afterwards — no fitting entry, or the entry's address happens to be
the null address — the bump-allocation path runs. -/
def malloc (heapStart : Nat) (s : HeapState) (size : Nat) : MallocOutcome :=
  match findFreeBlock s.table (alignedSize size) with
  | some (i, a) =>
    if a.address = 0 then
      appendBlock heapStart ⟨s.table.set i (some ⟨a.address, a.size, false⟩), s.allocIndex⟩
        (alignedSize size)
    else .ok ⟨s.table.set i (some ⟨a.address, a.size, false⟩), s.allocIndex⟩ a.address
  | none => appendBlock heapStart s (alignedSize size)

/-- Result of the `free` scan
`ALLOCATIONS.iter().enumerate().find(|(_, allocation)| { let addr = allocation.unwrap().address; allocation.is_some() && addr == ptr })`.
The closure calls `allocation.unwrap()` before testing `is_some()`, so the scan
panics on the first `None` slot it meets (`hitNone`); `found i a` means slot `i`
holds `Some a` with `a.address == ptr` and every earlier slot holds a `Some`
with a different address; `notFound` means every slot holds a non-matching
`Some`. -/
inductive ScanResult where
  | found (i : Nat) (a : Allocation)
  | hitNone
  | notFound
deriving DecidableEq, Repr

/-- The `free` scan itself (see `ScanResult`). -/
def scanForPtr : List (Option Allocation) → Nat → ScanResult
  | [], _ => .notFound
  | none :: _, _ => .hitNone
  | some a :: rest, p =>
    if a.address = p then .found 0 a
    else match scanForPtr rest p with
      | .found i b => .found (i + 1) b
      | r => r

/-- Result of one `free` call.  `ok s` is a normal return; `unwrapPanic` is the
`Option::unwrap`-on-`None` panic inside the scan closure; `unknownPanic t`
is the explicit `panic!("freeing a memory area we don't know of. {:?}", ALLOCATIONS)`,
which carries the table contents `t` in its diagnostic. -/
inductive FreeOutcome where
  | ok (s : HeapState)
  | unwrapPanic
  | unknownPanic (table : List (Option Allocation))
deriving DecidableEq, Repr

/-- `pub unsafe extern "C" fn free(ptr: *const u8)`.

A null pointer is a no-op.  Otherwise the scan looks for the entry storing
`ptr`; if found at the cursor the slot is emptied and the cursor decremented,
if found elsewhere the entry is re-stored with `free = true`; if the scan
finishes without a match the explicit panic reports the table. -/
def free (s : HeapState) (ptr : Nat) : FreeOutcome :=
  if ptr = 0 then .ok s
  else
    match scanForPtr s.table ptr with
    | .found i a =>
      if (i : Int) = s.allocIndex then
        .ok ⟨s.table.set i none, s.allocIndex - 1⟩
      else
        .ok ⟨s.table.set i (some ⟨a.address, a.size, true⟩), s.allocIndex⟩
    | .hitNone => .unwrapPanic
    | .notFound => .unknownPanic s.table

/-- The zero-fill loop of `calloc`: `n` times, write the byte `0x00` at the
current pointer and advance it by one. -/
def writeZeros : (Nat → Nat) → Nat → Nat → (Nat → Nat)
  | mem, _, 0 => mem
  | mem, addr, n + 1 => writeZeros (fun x => if x = addr then 0 else mem x) (addr + 1) n

/-- `pub unsafe extern "C" fn calloc(number: u32, size: u32) -> *const u8`:
`malloc(number * size)` (the `u32` product wraps modulo `2 ^ 32`) followed by
the zero-fill loop over that same number of bytes starting at the returned
pointer.  The byte memory is modelled as a function `Nat → Nat`. -/
def calloc (heapStart : Nat) (s : HeapState) (mem : Nat → Nat)
    (number size : Nat) : MallocOutcome × (Nat → Nat) :=
  match malloc heapStart s (number * size % 2 ^ 32) with
  | .ok s' addr => (.ok s' addr, writeZeros mem addr (number * size % 2 ^ 32))
  | r => (r, mem)

/-- Specification-side description of the zero fill: every byte in
`[addr, addr + n)` reads as zero, all other bytes are unchanged. -/
def zeroRange (mem : Nat → Nat) (addr n : Nat) : Nat → Nat :=
  fun x => if addr ≤ x ∧ x < addr + n then 0 else mem x

/-- Specification-side description of `calloc` (§4.3 of the spec): behave as
`malloc` of the wrapping 32-bit product, then zero that many bytes starting at
the returned address. -/
def callocSpec (heapStart : Nat) (s : HeapState) (mem : Nat → Nat)
    (number size : Nat) : MallocOutcome × (Nat → Nat) :=
  match malloc heapStart s (number * size % 2 ^ 32) with
  | .ok s' addr => (.ok s' addr, zeroRange mem addr (number * size % 2 ^ 32))
  | r => (r, mem)

/-- Number of occupied slots of the table (slots holding `Some`). -/
def occupiedCount (s : HeapState) : Nat :=
  s.table.countP (fun x => x.isSome)

/-- `k` successive `malloc heapStart · size` calls, `none` as soon as one of
them does not return normally. -/
def mallocN (heapStart : Nat) (s : HeapState) (size : Nat) : Nat → Option HeapState
  | 0 => some s
  | k + 1 =>
    match malloc heapStart s size with
    | .ok s' _ => mallocN heapStart s' size k
    | _ => none

/-- The states reachable from the initial state by normally-returning
`malloc` / `free` / `calloc` calls with `u32` arguments, at a fixed heap base. -/
inductive Reachable (heapStart : Nat) : HeapState → Prop where
  | init : Reachable heapStart initState
  | malloc_step {s s' : HeapState} {n p : Nat} :
      Reachable heapStart s → n < 2 ^ 32 →
      malloc heapStart s n = .ok s' p → Reachable heapStart s'
  | free_step {s s' : HeapState} {p : Nat} :
      Reachable heapStart s → free s p = .ok s' → Reachable heapStart s'
  | calloc_step {s s' : HeapState} {mem mem' : Nat → Nat} {number size p : Nat} :
      Reachable heapStart s → number < 2 ^ 32 → size < 2 ^ 32 →
      calloc heapStart s mem number size = (.ok s' p, mem') → Reachable heapStart s'

/-- A small concrete state used to exercise the theorems: block `{8, 16}` at
slot 0 is freed, block `{24, 8}` at slot 1 is live and topmost. -/
def demoState : HeapState :=
  ⟨some ⟨8, 16, true⟩ :: some ⟨24, 8, false⟩ :: List.replicate 126 none, 1⟩

/-- The state after `malloc(0)` from the initial state at heap base 8: a
zero-sized live block at address 8. -/
def zeroSizeState : HeapState :=
  ⟨(List.replicate CAP (none : Option Allocation)).set 0 (some ⟨8, 0, false⟩), 0⟩

/-- The state after `malloc(0); malloc(8)` from the initial state at heap base
8: two live blocks (slots 0 and 1) both stored at address 8. -/
def dupAddrState : HeapState :=
  ⟨((List.replicate CAP (none : Option Allocation)).set 0 (some ⟨8, 0, false⟩)).set 1
      (some ⟨8, 8, false⟩), 1⟩

/-- The state after 128 `malloc(8)` calls from the initial state at heap base
8: all 128 table slots occupied by live blocks. -/
def fullState : HeapState := (mallocN 8 initState 8 128).getD initState

/-! ### Generic list helpers -/

lemma getElem?_set_self {α : Type _} {l : List α} {i : Nat} {x : α} (h : i < l.length) :
    (l.set i x)[i]? = some x := by
  simp [List.getElem?_set, h]

lemma getElem?_set_ne {α : Type _} (l : List α) {i j : Nat} (x : α) (h : i ≠ j) :
    (l.set i x)[j]? = l[j]? := by
  simp [List.getElem?_set, h]

lemma set_getElem?_self {α : Type _} {l : List α} {i : Nat} {x : α}
    (h : l[i]? = some x) : l.set i x = l := by
  induction l generalizing i with
  | nil => simp at h
  | cons y ys ih =>
    cases i with
    | zero => simp_all
    | succ j =>
      simp only [List.getElem?_cons_succ] at h
      simp [List.set_cons_succ, ih h]

lemma countP_set_same {α : Type _} (q : α → Bool) {l : List α} {i : Nat} {x y : α}
    (h : l[i]? = some x) (hq : q x = q y) :
    (l.set i y).countP q = l.countP q := by
  induction l generalizing i with
  | nil => simp at h
  | cons z zs ih =>
    cases i with
    | zero =>
      simp only [List.getElem?_cons_zero, Option.some.injEq] at h
      subst h
      simp [List.countP_cons, hq]
    | succ j =>
      simp only [List.getElem?_cons_succ] at h
      simp [List.countP_cons, ih h]

/-! ### Characterization of the `malloc` reuse scan -/

lemma findFreeBlock_nil (sz : Nat) : findFreeBlock [] sz = none := rfl

lemma findFreeBlock_cons_none (rest : List (Option Allocation)) (sz : Nat) :
    findFreeBlock (none :: rest) sz =
      (findFreeBlock rest sz).map (fun p => (p.1 + 1, p.2)) := rfl

lemma findFreeBlock_cons_some (a : Allocation) (rest : List (Option Allocation)) (sz : Nat) :
    findFreeBlock (some a :: rest) sz =
      if a.free = true ∧ sz ≤ a.size then some (0, a)
      else (findFreeBlock rest sz).map (fun p => (p.1 + 1, p.2)) := rfl

lemma ffb_none_iff (l : List (Option Allocation)) (sz : Nat) :
    findFreeBlock l sz = none ↔
      ∀ (i : Nat) (a : Allocation), l[i]? = some (some a) → ¬ fits sz a := by
  induction l with
  | nil => simp [findFreeBlock_nil]
  | cons x rest ih =>
    cases x with
    | none =>
      rw [findFreeBlock_cons_none, Option.map_eq_none', ih]
      constructor
      · rintro h (_ | i) a ha
        · simp at ha
        · simp only [List.getElem?_cons_succ] at ha
          exact h i a ha
      · intro h i a ha
        exact h (i + 1) a (by simpa using ha)
    | some b =>
      rw [findFreeBlock_cons_some]
      by_cases hb : fits sz b
      · rw [if_pos (by exact hb)]
        simp only [false_iff, not_forall, reduceCtorEq]
        exact ⟨0, b, by simp, fun h => h hb⟩
      · rw [if_neg (by exact hb), Option.map_eq_none', ih]
        constructor
        · rintro h (_ | i) a ha
          · simp only [List.getElem?_cons_zero, Option.some.injEq] at ha
            subst ha; exact hb
          · simp only [List.getElem?_cons_succ] at ha
            exact h i a ha
        · intro h i a ha
          exact h (i + 1) a (by simpa using ha)

lemma ffb_some_spec {l : List (Option Allocation)} {sz : Nat} {i : Nat} {a : Allocation}
    (h : findFreeBlock l sz = some (i, a)) :
    l[i]? = some (some a) ∧ fits sz a ∧
      ∀ j, j < i → ∀ b, l[j]? = some (some b) → ¬ fits sz b := by
  induction l generalizing i with
  | nil => rw [findFreeBlock_nil] at h; cases h
  | cons x rest ih =>
    cases x with
    | none =>
      rw [findFreeBlock_cons_none, Option.map_eq_some'] at h
      obtain ⟨⟨i', a'⟩, hfb, hpe⟩ := h
      simp only [Prod.mk.injEq] at hpe
      obtain ⟨hi, ha⟩ := hpe
      subst ha; subst hi
      obtain ⟨h1, h2, h3⟩ := ih hfb
      refine ⟨by simpa using h1, h2, ?_⟩
      rintro (_ | j) hj b hb
      · simp at hb
      · simp only [List.getElem?_cons_succ] at hb
        exact h3 j (by omega) b hb
    | some c =>
      rw [findFreeBlock_cons_some] at h
      by_cases hc : fits sz c
      · rw [if_pos (by exact hc)] at h
        simp only [Option.some.injEq, Prod.mk.injEq] at h
        obtain ⟨hi, ha⟩ := h
        subst hi; subst ha
        exact ⟨by simp, hc, by omega⟩
      · rw [if_neg (by exact hc), Option.map_eq_some'] at h
        obtain ⟨⟨i', a'⟩, hfb, hpe⟩ := h
        simp only [Prod.mk.injEq] at hpe
        obtain ⟨hi, ha⟩ := hpe
        subst ha; subst hi
        obtain ⟨h1, h2, h3⟩ := ih hfb
        refine ⟨by simpa using h1, h2, ?_⟩
        rintro (_ | j) hj b hb
        · simp only [List.getElem?_cons_zero, Option.some.injEq] at hb
          subst hb; exact hc
        · simp only [List.getElem?_cons_succ] at hb
          exact h3 j (by omega) b hb

lemma ffb_of_first {l : List (Option Allocation)} {sz : Nat} {i : Nat} {a : Allocation}
    (hmem : l[i]? = some (some a)) (hfit : fits sz a)
    (hfirst : ∀ j, j < i → ∀ b, l[j]? = some (some b) → ¬ fits sz b) :
    findFreeBlock l sz = some (i, a) := by
  induction l generalizing i with
  | nil => simp at hmem
  | cons x rest ih =>
    cases i with
    | zero =>
      simp only [List.getElem?_cons_zero, Option.some.injEq] at hmem
      subst hmem
      rw [findFreeBlock_cons_some, if_pos (by exact hfit)]
    | succ i' =>
      simp only [List.getElem?_cons_succ] at hmem
      have hrest : findFreeBlock rest sz = some (i', a) := by
        refine ih hmem ?_
        intro j hj b hb
        exact hfirst (j + 1) (by omega) b (by simpa using hb)
      cases x with
      | none => rw [findFreeBlock_cons_none, hrest]; rfl
      | some c =>
        have hc : ¬ fits sz c := hfirst 0 (by omega) c (by simp)
        rw [findFreeBlock_cons_some, if_neg (by exact hc), hrest]
        rfl

/-! ### Characterization of the `free` scan -/

lemma scanForPtr_nil (p : Nat) : scanForPtr [] p = .notFound := rfl

lemma scanForPtr_cons_none (rest : List (Option Allocation)) (p : Nat) :
    scanForPtr (none :: rest) p = .hitNone := rfl

lemma scanForPtr_cons_some (a : Allocation) (rest : List (Option Allocation)) (p : Nat) :
    scanForPtr (some a :: rest) p =
      if a.address = p then .found 0 a
      else match scanForPtr rest p with
        | .found i b => .found (i + 1) b
        | r => r := rfl

lemma scan_found_spec {l : List (Option Allocation)} {p : Nat} {i : Nat} {a : Allocation}
    (h : scanForPtr l p = .found i a) :
    l[i]? = some (some a) ∧ a.address = p ∧
      ∀ j, j < i → ∃ b, l[j]? = some (some b) ∧ b.address ≠ p := by
  induction l generalizing i with
  | nil => rw [scanForPtr_nil] at h; cases h
  | cons x rest ih =>
    cases x with
    | none => rw [scanForPtr_cons_none] at h; cases h
    | some c =>
      rw [scanForPtr_cons_some] at h
      by_cases hc : c.address = p
      · rw [if_pos hc] at h
        simp only [ScanResult.found.injEq] at h
        obtain ⟨hi, ha⟩ := h
        subst hi; subst ha
        exact ⟨by simp, hc, by omega⟩
      · rw [if_neg hc] at h
        revert h
        cases hrest : scanForPtr rest p with
        | found i' b =>
          intro h
          simp only [ScanResult.found.injEq] at h
          obtain ⟨hi, ha⟩ := h
          subst ha; subst hi
          obtain ⟨h1, h2, h3⟩ := ih hrest
          refine ⟨by simpa using h1, h2, ?_⟩
          rintro (_ | j) hj
          · exact ⟨c, by simp, hc⟩
          · obtain ⟨b', hb1, hb2⟩ := h3 j (by omega)
            exact ⟨b', by simpa using hb1, hb2⟩
        | hitNone => intro h; cases h
        | notFound => intro h; cases h

lemma scan_of_first {l : List (Option Allocation)} {p : Nat} {i : Nat} {a : Allocation}
    (hfirst : ∀ j, j < i → ∃ b, l[j]? = some (some b) ∧ b.address ≠ p)
    (hmem : l[i]? = some (some a)) (hp : a.address = p) :
    scanForPtr l p = .found i a := by
  induction l generalizing i with
  | nil => simp at hmem
  | cons x rest ih =>
    cases i with
    | zero =>
      simp only [List.getElem?_cons_zero, Option.some.injEq] at hmem
      subst hmem
      rw [scanForPtr_cons_some, if_pos hp]
    | succ i' =>
      simp only [List.getElem?_cons_succ] at hmem
      obtain ⟨b, hb1, hb2⟩ := hfirst 0 (by omega)
      simp only [List.getElem?_cons_zero, Option.some.injEq] at hb1
      subst hb1
      have hrest : scanForPtr rest p = .found i' a := by
        refine ih ?_ hmem
        intro j hj
        obtain ⟨b', h1, h2⟩ := hfirst (j + 1) (by omega)
        exact ⟨b', by simpa using h1, h2⟩
      rw [scanForPtr_cons_some, if_neg hb2, hrest]

/-! ### Branch equations of `malloc`, `appendBlock` and `free` -/

lemma malloc_eq_reuse {heapStart : Nat} {s : HeapState} {n i : Nat} {a : Allocation}
    (hf : findFreeBlock s.table (alignedSize n) = some (i, a)) (h0 : a.address ≠ 0) :
    malloc heapStart s n =
      .ok ⟨s.table.set i (some ⟨a.address, a.size, false⟩), s.allocIndex⟩ a.address := by
  unfold malloc
  rw [hf]
  exact if_neg h0

lemma malloc_eq_reuse_null {heapStart : Nat} {s : HeapState} {n i : Nat} {a : Allocation}
    (hf : findFreeBlock s.table (alignedSize n) = some (i, a)) (h0 : a.address = 0) :
    malloc heapStart s n =
      appendBlock heapStart ⟨s.table.set i (some ⟨a.address, a.size, false⟩), s.allocIndex⟩
        (alignedSize n) := by
  unfold malloc
  rw [hf]
  exact if_pos h0

lemma malloc_eq_append {heapStart : Nat} {s : HeapState} {n : Nat}
    (hf : findFreeBlock s.table (alignedSize n) = none) :
    malloc heapStart s n = appendBlock heapStart s (alignedSize n) := by
  unfold malloc
  rw [hf]

lemma append_eq_empty {heapStart : Nat} {s : HeapState} {al : Nat}
    (h : s.allocIndex = -1) :
    appendBlock heapStart s al = .ok ⟨s.table.set 0 (some ⟨heapStart, al, false⟩), 0⟩ heapStart := by
  unfold appendBlock
  rw [if_pos h]

lemma append_eq_top {heapStart : Nat} {s : HeapState} {al : Nat} {m : Nat} {top : Allocation}
    (hm : s.allocIndex = (m : Int)) (htop : s.table[m]? = some (some top))
    (hcap : m + 1 < CAP) :
    appendBlock heapStart s al =
      .ok ⟨s.table.set (m + 1) (some ⟨top.address + top.size, al, false⟩), s.allocIndex + 1⟩
        (top.address + top.size) := by
  unfold appendBlock
  rw [if_neg (by rw [hm]; omega), hm]
  simp only [Int.toNat_natCast, htop]
  rw [if_pos hcap]

lemma append_eq_oob {heapStart : Nat} {s : HeapState} {al : Nat} {m : Nat} {top : Allocation}
    (hm : s.allocIndex = (m : Int)) (htop : s.table[m]? = some (some top))
    (hcap : ¬ m + 1 < CAP) :
    appendBlock heapStart s al = .oobWrite (m + 1) := by
  unfold appendBlock
  rw [if_neg (by rw [hm]; omega), hm]
  simp only [Int.toNat_natCast, htop]
  rw [if_neg hcap]

lemma free_eq_found_top {s : HeapState} {ptr : Nat} {i : Nat} {a : Allocation}
    (hp : ptr ≠ 0) (hscan : scanForPtr s.table ptr = .found i a)
    (hi : (i : Int) = s.allocIndex) :
    free s ptr = .ok ⟨s.table.set i none, s.allocIndex - 1⟩ := by
  unfold free
  rw [if_neg hp]
  simp only [hscan]
  rw [if_pos hi]

lemma free_eq_found_mid {s : HeapState} {ptr : Nat} {i : Nat} {a : Allocation}
    (hp : ptr ≠ 0) (hscan : scanForPtr s.table ptr = .found i a)
    (hi : ¬ (i : Int) = s.allocIndex) :
    free s ptr = .ok ⟨s.table.set i (some ⟨a.address, a.size, true⟩), s.allocIndex⟩ := by
  unfold free
  rw [if_neg hp]
  simp only [hscan]
  rw [if_neg hi]

lemma calloc_fst (heapStart : Nat) (s : HeapState) (mem : Nat → Nat) (number size : Nat) :
    (calloc heapStart s mem number size).1 = malloc heapStart s (number * size % 2 ^ 32) := by
  unfold calloc
  cases malloc heapStart s (number * size % 2 ^ 32) <;> rfl

/-! ### The state invariant -/

/-- The inductive invariant on allocator states at heap base `heapStart`:
the table always holds `CAP` slots; the cursor stays in `[-1, CAP)`; a slot is
occupied exactly when its index is at most the cursor; every stored address is
at least the heap base; slot 0 (when occupied) sits exactly at the heap base;
and consecutive occupied slots have contiguous addresses. -/
structure Wf (heapStart : Nat) (s : HeapState) : Prop where
  len : s.table.length = CAP
  lb : -1 ≤ s.allocIndex
  ub : s.allocIndex < (CAP : Int)
  occ : ∀ i : Nat, (∃ a : Allocation, s.table[i]? = some (some a)) ↔ (i : Int) ≤ s.allocIndex
  addrLB : ∀ (i : Nat) (a : Allocation), s.table[i]? = some (some a) → heapStart ≤ a.address
  base : ∀ a : Allocation, s.table[0]? = some (some a) → a.address = heapStart
  chain : ∀ (i : Nat) (a b : Allocation), s.table[i]? = some (some a) →
    s.table[i + 1]? = some (some b) → b.address = a.address + a.size

lemma init_getElem? (i : Nat) :
    initState.table[i]? = if i < CAP then some (none : Option Allocation) else none := by
  simp [initState, List.getElem?_replicate]

lemma init_not_occupied (i : Nat) (a : Allocation) : initState.table[i]? ≠ some (some a) := by
  rw [init_getElem?]
  split <;> simp

lemma wf_init (heapStart : Nat) : Wf heapStart initState := by
  refine ⟨?_, ?_, ?_, ?_, ?_, ?_, ?_⟩
  · simp [initState]
  · norm_num [initState]
  · norm_num [initState, CAP]
  · intro i
    constructor
    · rintro ⟨a, ha⟩
      exact absurd ha (init_not_occupied i a)
    · intro h
      simp only [initState] at h
      omega
  · intro i a ha
    exact absurd ha (init_not_occupied i a)
  · intro a ha
    exact absurd ha (init_not_occupied 0 a)
  · intro i a b ha _
    exact absurd ha (init_not_occupied i a)

lemma CAP_eq : CAP = 128 := rfl

lemma lt_length_of_getElem? {α : Type _} {l : List α} {i : Nat} {x : α}
    (h : l[i]? = some x) : i < l.length := by
  induction l generalizing i with
  | nil => simp at h
  | cons y ys ih =>
    cases i with
    | zero => simp
    | succ j =>
      simp only [List.getElem?_cons_succ] at h
      have := ih h
      simp only [List.length_cons]
      omega

/-- Overwriting an occupied slot with a record of the same address and size
(only the `free` flag may change) preserves the invariant. -/
lemma wf_set_entry {heapStart : Nat} {s : HeapState} (hwf : Wf heapStart s) {i : Nat}
    {a a' : Allocation} (hmem : s.table[i]? = some (some a))
    (haddr : a'.address = a.address) (hsize : a'.size = a.size) :
    Wf heapStart ⟨s.table.set i (some a'), s.allocIndex⟩ := by
  have hi_len : i < s.table.length := lt_length_of_getElem? hmem
  refine ⟨by simp [List.length_set, hwf.len], hwf.lb, hwf.ub, ?_, ?_, ?_, ?_⟩
  · intro j
    by_cases hij : i = j
    · subst hij
      rw [getElem?_set_self hi_len]
      constructor
      · intro _
        exact (hwf.occ i).mp ⟨a, hmem⟩
      · intro _
        exact ⟨a', rfl⟩
    · rw [getElem?_set_ne _ _ hij]
      exact hwf.occ j
  · intro j b hb
    by_cases hij : i = j
    · subst hij
      rw [getElem?_set_self hi_len] at hb
      obtain rfl : a' = b := by simpa using hb
      rw [haddr]
      exact hwf.addrLB _ _ hmem
    · rw [getElem?_set_ne _ _ hij] at hb
      exact hwf.addrLB _ _ hb
  · intro b hb
    by_cases hij : i = 0
    · subst hij
      rw [getElem?_set_self hi_len] at hb
      obtain rfl : a' = b := by simpa using hb
      rw [haddr]
      exact hwf.base _ hmem
    · rw [getElem?_set_ne _ _ hij] at hb
      exact hwf.base _ hb
  · intro j b c hb hc
    by_cases hji : i = j
    · subst hji
      rw [getElem?_set_self hi_len] at hb
      obtain rfl : a' = b := by simpa using hb
      rw [getElem?_set_ne _ _ (by omega)] at hc
      rw [haddr, hsize]
      exact hwf.chain _ _ _ hmem hc
    · rw [getElem?_set_ne _ _ hji] at hb
      by_cases hji1 : i = j + 1
      · subst hji1
        rw [getElem?_set_self hi_len] at hc
        obtain rfl : a' = c := by simpa using hc
        rw [haddr]
        exact hwf.chain _ _ _ hb hmem
      · rw [getElem?_set_ne _ _ hji1] at hc
        exact hwf.chain _ _ _ hb hc

/-- A normally-returning bump allocation preserves the invariant. -/
lemma wf_appendBlock {heapStart : Nat} {s s' : HeapState} {al p : Nat}
    (hwf : Wf heapStart s) (h : appendBlock heapStart s al = .ok s' p) :
    Wf heapStart s' := by
  by_cases hneg : s.allocIndex = -1
  · rw [append_eq_empty hneg] at h
    injection h with h1 h2
    subst h1
    have h0len : 0 < s.table.length := by
      rw [hwf.len, CAP_eq]
      omega
    refine ⟨by simp [List.length_set, hwf.len], by norm_num, by rw [CAP_eq]; norm_num, ?_, ?_, ?_, ?_⟩
    · intro j
      by_cases hj : (0 : Nat) = j
      · subst hj
        rw [getElem?_set_self h0len]
        simp
      · rw [getElem?_set_ne _ _ hj]
        constructor
        · rintro ⟨b, hb⟩
          have := (hwf.occ j).mp ⟨b, hb⟩
          rw [hneg] at this
          omega
        · intro hle
          exfalso
          dsimp only at hle
          omega
    · intro j b hb
      by_cases hj : (0 : Nat) = j
      · subst hj
        rw [getElem?_set_self h0len] at hb
        obtain rfl : Allocation.mk heapStart al false = b := by simpa using hb
        exact le_refl _
      · rw [getElem?_set_ne _ _ hj] at hb
        exact hwf.addrLB _ _ hb
    · intro b hb
      rw [getElem?_set_self h0len] at hb
      obtain rfl : Allocation.mk heapStart al false = b := by simpa using hb
      rfl
    · intro j b c hb hc
      exfalso
      rw [getElem?_set_ne _ _ (by omega)] at hc
      have := (hwf.occ (j + 1)).mp ⟨c, hc⟩
      rw [hneg] at this
      omega
  · have hm0 : 0 ≤ s.allocIndex := by
      have := hwf.lb
      omega
    have hm : s.allocIndex = (s.allocIndex.toNat : Int) := by omega
    obtain ⟨top, htop⟩ := (hwf.occ s.allocIndex.toNat).mpr (by omega)
    by_cases hcap : s.allocIndex.toNat + 1 < CAP
    · rw [append_eq_top hm htop hcap] at h
      injection h with h1 h2
      subst h1
      have hlen1 : s.allocIndex.toNat + 1 < s.table.length := by
        rw [hwf.len]
        exact hcap
      have hub := hwf.ub
      rw [CAP_eq] at hcap hub
      refine ⟨by simp [List.length_set, hwf.len], by dsimp only; omega,
        by dsimp only; rw [CAP_eq]; omega, ?_, ?_, ?_, ?_⟩
      · intro j
        by_cases hj : s.allocIndex.toNat + 1 = j
        · subst hj
          rw [getElem?_set_self hlen1]
          dsimp only
          constructor
          · intro _
            omega
          · intro _
            exact ⟨_, rfl⟩
        · rw [getElem?_set_ne _ _ hj]
          rw [hwf.occ j]
          dsimp only
          omega
      · intro j b hb
        by_cases hj : s.allocIndex.toNat + 1 = j
        · subst hj
          rw [getElem?_set_self hlen1] at hb
          obtain rfl : Allocation.mk (top.address + top.size) al false = b := by simpa using hb
          have := hwf.addrLB _ _ htop
          dsimp only
          omega
        · rw [getElem?_set_ne _ _ hj] at hb
          exact hwf.addrLB _ _ hb
      · intro b hb
        rw [getElem?_set_ne _ _ (by omega)] at hb
        exact hwf.base _ hb
      · intro j b c hb hc
        by_cases hj1 : s.allocIndex.toNat + 1 = j + 1
        · have hj : j = s.allocIndex.toNat := by omega
          subst hj
          rw [getElem?_set_ne _ _ (by omega)] at hb
          rw [hb] at htop
          obtain rfl : top = b := by simpa using htop.symm
          rw [getElem?_set_self hlen1] at hc
          obtain rfl : Allocation.mk (top.address + top.size) al false = c := by simpa using hc
          rfl
        · by_cases hj : s.allocIndex.toNat + 1 = j
          · subst hj
            exfalso
            rw [getElem?_set_ne _ _ (by omega)] at hc
            have := (hwf.occ _).mp ⟨c, hc⟩
            omega
          · rw [getElem?_set_ne _ _ hj] at hb
            rw [getElem?_set_ne _ _ hj1] at hc
            exact hwf.chain _ _ _ hb hc
    · rw [append_eq_oob hm htop hcap] at h
      cases h

/-- A normally-returning `malloc` preserves the invariant. -/
lemma wf_malloc {heapStart : Nat} {s s' : HeapState} {n p : Nat}
    (hwf : Wf heapStart s) (h : malloc heapStart s n = .ok s' p) : Wf heapStart s' := by
  cases hf : findFreeBlock s.table (alignedSize n) with
  | none =>
    rw [malloc_eq_append hf] at h
    exact wf_appendBlock hwf h
  | some ia =>
    obtain ⟨i, a⟩ := ia
    obtain ⟨hmem, hfit, hfirst⟩ := ffb_some_spec hf
    have hwf1 : Wf heapStart ⟨s.table.set i (some ⟨a.address, a.size, false⟩), s.allocIndex⟩ :=
      wf_set_entry hwf hmem rfl rfl
    by_cases h0 : a.address = 0
    · rw [malloc_eq_reuse_null hf h0] at h
      exact wf_appendBlock hwf1 h
    · rw [malloc_eq_reuse hf h0] at h
      injection h with h1 h2
      subst h1
      exact hwf1

/-- A normally-returning `free` preserves the invariant. -/
lemma wf_free {heapStart : Nat} {s s' : HeapState} {ptr : Nat}
    (hwf : Wf heapStart s) (h : free s ptr = .ok s') : Wf heapStart s' := by
  by_cases hp : ptr = 0
  · unfold free at h
    rw [if_pos hp] at h
    injection h with h1
    subst h1
    exact hwf
  · cases hscan : scanForPtr s.table ptr with
    | found i a =>
      obtain ⟨hmem, haddr, hprev⟩ := scan_found_spec hscan
      have hi_len : i < s.table.length := lt_length_of_getElem? hmem
      have hi_cur : (i : Int) ≤ s.allocIndex := (hwf.occ i).mp ⟨a, hmem⟩
      by_cases hi : (i : Int) = s.allocIndex
      · rw [free_eq_found_top hp hscan hi] at h
        injection h with h1
        subst h1
        have hub := hwf.ub
        have hlb := hwf.lb
        refine ⟨by simp [List.length_set, hwf.len], by dsimp only; omega,
          by dsimp only; omega, ?_, ?_, ?_, ?_⟩
        · intro j
          by_cases hij : i = j
          · subst hij
            rw [getElem?_set_self hi_len]
            constructor
            · rintro ⟨b, hb⟩
              simp at hb
            · intro hle
              exfalso
              dsimp only at hle
              omega
          · rw [getElem?_set_ne _ _ hij]
            rw [hwf.occ j]
            dsimp only
            omega
        · intro j b hb
          by_cases hij : i = j
          · subst hij
            rw [getElem?_set_self hi_len] at hb
            simp at hb
          · rw [getElem?_set_ne _ _ hij] at hb
            exact hwf.addrLB _ _ hb
        · intro b hb
          by_cases hij : i = 0
          · subst hij
            rw [getElem?_set_self hi_len] at hb
            simp at hb
          · rw [getElem?_set_ne _ _ hij] at hb
            exact hwf.base _ hb
        · intro j b c hb hc
          by_cases hij : i = j
          · subst hij
            rw [getElem?_set_self hi_len] at hb
            simp at hb
          · rw [getElem?_set_ne _ _ hij] at hb
            by_cases hij1 : i = j + 1
            · subst hij1
              rw [getElem?_set_self hi_len] at hc
              simp at hc
            · rw [getElem?_set_ne _ _ hij1] at hc
              exact hwf.chain _ _ _ hb hc
      · rw [free_eq_found_mid hp hscan hi] at h
        injection h with h1
        subst h1
        exact wf_set_entry hwf hmem rfl rfl
    | hitNone =>
      unfold free at h
      rw [if_neg hp] at h
      simp only [hscan] at h
      cases h
    | notFound =>
      unfold free at h
      rw [if_neg hp] at h
      simp only [hscan] at h
      cases h

/-- Every reachable state satisfies the invariant. -/
lemma wf_reachable {heapStart : Nat} {s : HeapState} (h : Reachable heapStart s) :
    Wf heapStart s := by
  induction h with
  | init => exact wf_init heapStart
  | malloc_step hr hlt hm ih => exact wf_malloc ih hm
  | free_step hr hf ih => exact wf_free ih hf
  | calloc_step hr h1 h2 hc ih =>
    have hfst := congrArg Prod.fst hc
    rw [calloc_fst] at hfst
    exact wf_malloc ih hfst

/-! ### Derived facts: address ordering and returned addresses -/

/-- In an invariant state whose entries all have nonzero size, stored addresses
are strictly increasing along the table. -/
lemma addr_lt_of_lt {heapStart : Nat} {s : HeapState} (hwf : Wf heapStart s)
    (hnz : ∀ (i : Nat) (a : Allocation), s.table[i]? = some (some a) → a.size ≠ 0) :
    ∀ (k i : Nat) (a b : Allocation), s.table[i]? = some (some a) →
      s.table[i + k + 1]? = some (some b) → a.address < b.address := by
  intro k
  induction k with
  | zero =>
    intro i a b ha hb
    have hch := hwf.chain i a b ha hb
    have hsz := hnz i a ha
    omega
  | succ k ih =>
    intro i a b ha hb
    have hocc : ((i + k + 1 : Nat) : Int) ≤ s.allocIndex := by
      have := (hwf.occ (i + k + 1 + 1)).mp ⟨b, hb⟩
      omega
    obtain ⟨c, hc⟩ := (hwf.occ (i + k + 1)).mpr hocc
    have h1 := ih i a c ha hc
    have h2 := hwf.chain (i + k + 1) c b hc hb
    have hsz := hnz (i + k + 1) c hc
    omega

/-- In an invariant state whose entries all have nonzero size, distinct slots
store distinct addresses. -/
lemma addr_distinct {heapStart : Nat} {s : HeapState} (hwf : Wf heapStart s)
    (hnz : ∀ (i : Nat) (a : Allocation), s.table[i]? = some (some a) → a.size ≠ 0)
    {i j : Nat} {a b : Allocation} (hne : i ≠ j) (ha : s.table[i]? = some (some a))
    (hb : s.table[j]? = some (some b)) : a.address ≠ b.address := by
  rcases Nat.lt_or_ge i j with h | h
  · have := addr_lt_of_lt hwf hnz (j - i - 1) i a b ha
      (by rw [show i + (j - i - 1) + 1 = j by omega]; exact hb)
    omega
  · have hlt : j < i := by omega
    have := addr_lt_of_lt hwf hnz (i - j - 1) j b a hb
      (by rw [show j + (i - j - 1) + 1 = i by omega]; exact ha)
    omega

/-- A normally-returning bump allocation returns an address at least the heap
base. -/
lemma append_ok_addr {heapStart : Nat} {s s' : HeapState} {al p : Nat} (hwf : Wf heapStart s)
    (h : appendBlock heapStart s al = .ok s' p) : heapStart ≤ p := by
  by_cases hneg : s.allocIndex = -1
  · rw [append_eq_empty hneg] at h
    injection h with h1 h2
    omega
  · have hm : s.allocIndex = (s.allocIndex.toNat : Int) := by
      have := hwf.lb
      omega
    obtain ⟨top, htop⟩ := (hwf.occ s.allocIndex.toNat).mpr (by omega)
    by_cases hcap : s.allocIndex.toNat + 1 < CAP
    · rw [append_eq_top hm htop hcap] at h
      injection h with h1 h2
      have := hwf.addrLB _ _ htop
      omega
    · rw [append_eq_oob hm htop hcap] at h
      cases h

/-- A normally-returning `malloc` returns an address at least the heap base. -/
lemma malloc_ok_addr {heapStart : Nat} {s s' : HeapState} {n p : Nat} (hwf : Wf heapStart s)
    (h : malloc heapStart s n = .ok s' p) : heapStart ≤ p := by
  cases hf : findFreeBlock s.table (alignedSize n) with
  | none =>
    rw [malloc_eq_append hf] at h
    exact append_ok_addr hwf h
  | some ia =>
    obtain ⟨i, a⟩ := ia
    obtain ⟨hmem, hfit, hfirst⟩ := ffb_some_spec hf
    have hwf1 : Wf heapStart ⟨s.table.set i (some ⟨a.address, a.size, false⟩), s.allocIndex⟩ :=
      wf_set_entry hwf hmem rfl rfl
    by_cases h0 : a.address = 0
    · rw [malloc_eq_reuse_null hf h0] at h
      exact append_ok_addr hwf1 h
    · rw [malloc_eq_reuse hf h0] at h
      injection h with h1 h2
      subst h2
      exact hwf.addrLB _ _ hmem

/-- Re-assembling a record whose `free` flag is already `true`. -/
lemma alloc_eta_free {a : Allocation} (h : a.free = true) :
    Allocation.mk a.address a.size true = a := by
  cases a
  simp_all

lemma option_eq_some_getD {α : Type _} {o : Option α} (d : α) (h : o.isSome = true) :
    o = some (o.getD d) := by
  cases o with
  | none => cases h
  | some x => rfl

/-- Chained normally-returning `malloc` calls stay within the reachable states. -/
lemma mallocN_reachable {heapStart sz : Nat} (hsz : sz < 2 ^ 32) :
    ∀ (k : Nat) (s s' : HeapState), Reachable heapStart s →
      mallocN heapStart s sz k = some s' → Reachable heapStart s' := by
  intro k
  induction k with
  | zero =>
    intro s s' hr h
    simp only [mallocN, Option.some.injEq] at h
    subst h
    exact hr
  | succ k ih =>
    intro s s' hr h
    cases hm : malloc heapStart s sz with
    | ok s2 q =>
      simp only [mallocN, hm] at h
      exact ih s2 s' (Reachable.malloc_step hr hsz hm) h
    | oobWrite i =>
      simp only [mallocN, hm] at h
      exact Option.noConfusion h
    | unwrapNone =>
      simp only [mallocN, hm] at h
      exact Option.noConfusion h

/-- What a normally-returning bump allocation stores: the cursor goes up by one
and the new cursor slot holds the returned address with the aligned size, live. -/
lemma append_ok_spec {heapStart : Nat} {s s' : HeapState} {al p : Nat} (hwf : Wf heapStart s)
    (h : appendBlock heapStart s al = .ok s' p) :
    s'.allocIndex = s.allocIndex + 1 ∧
      s'.table[s'.allocIndex.toNat]? = some (some ⟨p, al, false⟩) := by
  by_cases hneg : s.allocIndex = -1
  · rw [append_eq_empty hneg] at h
    injection h with h1 h2
    subst h1
    subst h2
    constructor
    · dsimp only
      rw [hneg]
      decide
    · dsimp only
      have hlen : 0 < s.table.length := by
        rw [hwf.len, CAP_eq]
        omega
      exact getElem?_set_self hlen
  · have hm : s.allocIndex = (s.allocIndex.toNat : Int) := by
      have := hwf.lb
      omega
    obtain ⟨top, htop⟩ := (hwf.occ s.allocIndex.toNat).mpr (by omega)
    by_cases hcap : s.allocIndex.toNat + 1 < CAP
    · rw [append_eq_top hm htop hcap] at h
      injection h with h1 h2
      subst h1
      subst h2
      constructor
      · rfl
      · dsimp only
        have htn : (s.allocIndex + 1).toNat = s.allocIndex.toNat + 1 := by omega
        rw [htn]
        have hlen : s.allocIndex.toNat + 1 < s.table.length := by
          rw [hwf.len]
          exact hcap
        exact getElem?_set_self hlen
    · rw [append_eq_oob hm htop hcap] at h
      cases h

/-- C6 counterexample: at the top of the `u32` range the aligned size wraps;
the stored size for a request of `2 ^ 32 - 1` bytes is `0`, not `⌈n/8⌉ * 8`. -/
theorem c6_counterexample :
    alignedSize 4294967295 = 0 ∧ ((4294967295 + 7) / 8) * 8 = 4294967296 ∧
      alignedSize 4294967295 ≠ ((4294967295 + 7) / 8) * 8 := by
  refine ⟨by decide, by norm_num, by decide⟩

/-- C6 (amended): for every request `n` with `n ≤ 2 ^ 32 - 8` the aligned size
is `⌈n/8⌉ * 8` (for the seven largest `u32` values it wraps to `0` instead);
requests `0, 1, 7, 8, 9` round to `0, 8, 8, 8, 16`; and a `malloc` that returns
normally either reuses a block (cursor unchanged) or stores a fresh record
whose size is exactly the aligned size — never the raw request. -/
theorem c6_aligned_size (n : Nat) (hn : n ≤ 2 ^ 32 - 8) :
    alignedSize n = ((n + 7) / 8) * 8 ∧
    (alignedSize 0 = 0 ∧ alignedSize 1 = 8 ∧ alignedSize 7 = 8 ∧ alignedSize 8 = 8 ∧
      alignedSize 9 = 16) ∧
    (∀ (heapStart : Nat) (s s' : HeapState) (k p : Nat), Wf heapStart s →
      malloc heapStart s k = .ok s' p →
      s'.allocIndex = s.allocIndex ∨
        (s'.allocIndex = s.allocIndex + 1 ∧
          s'.table[s'.allocIndex.toNat]? = some (some ⟨p, alignedSize k, false⟩))) := by
  refine ⟨?_, by refine ⟨by decide, by decide, by decide, by decide, by decide⟩, ?_⟩
  · unfold alignedSize
    by_cases h8 : n % 8 = 0
    · rw [if_neg (by omega)]
      omega
    · rw [if_pos h8]
      omega
  · intro heapStart s s' k p hwf hm
    cases hf : findFreeBlock s.table (alignedSize k) with
    | none =>
      rw [malloc_eq_append hf] at hm
      exact Or.inr (append_ok_spec hwf hm)
    | some ia =>
      obtain ⟨i, a⟩ := ia
      obtain ⟨hmem, hfit, hfirst⟩ := ffb_some_spec hf
      have hwf1 : Wf heapStart ⟨s.table.set i (some ⟨a.address, a.size, false⟩), s.allocIndex⟩ :=
        wf_set_entry hwf hmem rfl rfl
      by_cases h0 : a.address = 0
      · rw [malloc_eq_reuse_null hf h0] at hm
        have hspec := append_ok_spec hwf1 hm
        exact Or.inr ⟨hspec.1, hspec.2⟩
      · rw [malloc_eq_reuse hf h0] at hm
        injection hm with h1 h2
        subst h1
        exact Or.inl rfl

/-- C6 witness: the amended statement evaluated at the request `9` and at a
concrete `malloc` from the initial state. -/
theorem c6_aligned_size_witness :
    alignedSize 9 = ((9 + 7) / 8) * 8 ∧
      ((⟨(List.replicate CAP (none : Option Allocation)).set 0 (some ⟨8, 8, false⟩),
          0⟩ : HeapState).allocIndex = initState.allocIndex ∨
        ((⟨(List.replicate CAP (none : Option Allocation)).set 0 (some ⟨8, 8, false⟩),
            0⟩ : HeapState).allocIndex = initState.allocIndex + 1 ∧
          (⟨(List.replicate CAP (none : Option Allocation)).set 0 (some ⟨8, 8, false⟩),
              0⟩ : HeapState).table[(⟨(List.replicate CAP
                (none : Option Allocation)).set 0 (some ⟨8, 8, false⟩),
              0⟩ : HeapState).allocIndex.toNat]? = some (some ⟨8, alignedSize 8, false⟩))) :=
  ⟨(c6_aligned_size 9 (by norm_num)).1,
    (c6_aligned_size 9 (by norm_num)).2.2 8 initState
      ⟨(List.replicate CAP (none : Option Allocation)).set 0 (some ⟨8, 8, false⟩), 0⟩ 8 8
      (wf_init 8) (by decide)⟩

/-- C7: the failing input — releasing the non-null address `5`, of which the
(empty) table has no record, panics inside the scan closure through
`Option::unwrap` on a `None` slot, not through the explicit
`panic!("freeing a memory area we don't know of. {:?}", ALLOCATIONS)` that
would report the table contents. -/
theorem c7_unknown_free_panics_without_table_report :
    free initState 5 = FreeOutcome.unwrapPanic := by decide

/-- C2: the reuse scan of `malloc` claims the first entry that is free with a
stored size at least the aligned request: the returned address is that entry's
stored address, its free flag is cleared in place, and its size, every other
slot and the cursor are left unmodified (no splitting or shrinking). -/
theorem c2_first_fit_reuse (heapStart : Nat) (s : HeapState) (n i : Nat) (a : Allocation)
    (hmem : s.table[i]? = some (some a))
    (hfree : a.free = true) (hsize : alignedSize n ≤ a.size)
    (hfirst : ∀ j, j < i → ∀ b, s.table[j]? = some (some b) →
      ¬ (b.free = true ∧ alignedSize n ≤ b.size))
    (h0 : a.address ≠ 0) :
    malloc heapStart s n =
      .ok ⟨s.table.set i (some ⟨a.address, a.size, false⟩), s.allocIndex⟩ a.address := by
  have hf : findFreeBlock s.table (alignedSize n) = some (i, a) :=
    ffb_of_first hmem ⟨hfree, hsize⟩ (fun j hj b hb => hfirst j hj b hb)
  exact malloc_eq_reuse hf h0

/-- C2 witness: reusing the freed 16-byte block of `demoState` for a request
of 8 bytes. -/
theorem c2_first_fit_reuse_witness :
    malloc 4 demoState 8 =
      .ok ⟨demoState.table.set 0 (some ⟨8, 16, false⟩), demoState.allocIndex⟩ 8 :=
  c2_first_fit_reuse 4 demoState 8 0 ⟨8, 16, true⟩ (by decide) (by decide) (by decide)
    (fun j hj b hb => absurd hj (Nat.not_lt_zero j)) (by decide)

/-- C3: when no table entry is free with sufficient size, `malloc` bump
allocates: the fresh address is the heap base when the table is empty
(cursor `-1`) and otherwise the highest active entry's address plus its size;
the record `{address, aligned size, free := false}` is stored at `cursor + 1`
and the cursor is incremented. -/
theorem c3_bump_allocation (heapStart : Nat) (s : HeapState) (n : Nat)
    (hnofit : ∀ (j : Nat) (b : Allocation), s.table[j]? = some (some b) →
      ¬ (b.free = true ∧ alignedSize n ≤ b.size)) :
    (s.allocIndex = -1 →
      malloc heapStart s n =
        .ok ⟨s.table.set 0 (some ⟨heapStart, alignedSize n, false⟩), 0⟩ heapStart) ∧
    (∀ (m : Nat) (top : Allocation), s.allocIndex = (m : Int) →
      s.table[m]? = some (some top) → m + 1 < CAP →
      malloc heapStart s n =
        .ok ⟨s.table.set (m + 1) (some ⟨top.address + top.size, alignedSize n, false⟩),
            s.allocIndex + 1⟩ (top.address + top.size)) := by
  have hf : findFreeBlock s.table (alignedSize n) = none :=
    (ffb_none_iff _ _).mpr (fun i a ha => hnofit i a ha)
  constructor
  · intro hneg
    rw [malloc_eq_append hf, append_eq_empty hneg]
  · intro m top hm htop hcap
    rw [malloc_eq_append hf, append_eq_top hm htop hcap]

/-- C3 witness: the very first allocation from the empty table is placed at
the heap base, and a bump allocation on `demoState` is placed right after its
topmost block. -/
theorem c3_bump_allocation_witness :
    malloc 8 initState 8 =
      .ok ⟨initState.table.set 0 (some ⟨8, alignedSize 8, false⟩), 0⟩ 8 ∧
    malloc 4 demoState 24 =
      .ok ⟨demoState.table.set 2 (some ⟨24 + 8, alignedSize 24, false⟩),
          demoState.allocIndex + 1⟩ (24 + 8) :=
  ⟨(c3_bump_allocation 8 initState 8
      (fun j b hb => absurd hb (init_not_occupied j b))).1 rfl,
    (c3_bump_allocation 4 demoState 24
        (fun j b hb => (ffb_none_iff demoState.table (alignedSize 24)).mp (by decide) j b hb)).2
      1 ⟨24, 8, false⟩ rfl (by decide) (by decide)⟩

/-- C8: releasing an address whose (first-matching) table entry is already
marked free and does not sit at the cursor re-marks it free, which leaves every
slot and the cursor unchanged and does not abort: an idempotent no-op. -/
theorem c8_refree_nontop_noop (s : HeapState) (ptr i : Nat) (a : Allocation)
    (hp : ptr ≠ 0) (hscan : scanForPtr s.table ptr = .found i a)
    (hfree : a.free = true) (hi : ¬ (i : Int) = s.allocIndex) :
    free s ptr = .ok s := by
  have hmem := (scan_found_spec hscan).1
  rw [free_eq_found_mid hp hscan hi]
  have htab : s.table.set i (some ⟨a.address, a.size, true⟩) = s.table := by
    rw [alloc_eta_free hfree]
    exact set_getElem?_self hmem
  rw [htab]

/-- C8 witness: re-releasing the already-freed non-top block of `demoState`
leaves the state untouched. -/
theorem c8_refree_nontop_noop_witness : free demoState 8 = .ok demoState :=
  c8_refree_nontop_noop demoState 8 0 ⟨8, 16, true⟩ (by decide) (by decide) (by decide)
    (by decide)

/-- The byte-by-byte zero-fill loop computes exactly the range zeroing of the
specification. -/
lemma writeZeros_eq_zeroRange :
    ∀ (n : Nat) (mem : Nat → Nat) (addr x : Nat),
      writeZeros mem addr n x = zeroRange mem addr n x := by
  intro n
  induction n with
  | zero =>
    intro mem addr x
    show mem x = if addr ≤ x ∧ x < addr + 0 then 0 else mem x
    rw [if_neg (by omega)]
  | succ n ih =>
    intro mem addr x
    show writeZeros (fun y => if y = addr then 0 else mem y) (addr + 1) n x
      = if addr ≤ x ∧ x < addr + (n + 1) then 0 else mem x
    rw [ih]
    show (if addr + 1 ≤ x ∧ x < addr + 1 + n then 0 else if x = addr then 0 else mem x)
      = if addr ≤ x ∧ x < addr + (n + 1) then 0 else mem x
    by_cases hx : x = addr
    · subst hx
      rw [if_neg (by omega), if_pos rfl, if_pos (by omega)]
    · by_cases h1 : addr + 1 ≤ x ∧ x < addr + 1 + n
      · rw [if_pos h1, if_pos (by omega)]
      · rw [if_neg h1, if_neg hx, if_neg (by omega)]

/-- C9: `calloc` behaves exactly as `malloc` of the wrapping 32-bit product
`number * size` followed by zeroing that many bytes from the returned address
(`callocSpec`), and consequently every byte of the returned region reads back
as zero immediately after a normally-returning call. -/
theorem c9_calloc_zeroing (heapStart : Nat) (s : HeapState) (mem : Nat → Nat)
    (number size : Nat) :
    calloc heapStart s mem number size = callocSpec heapStart s mem number size ∧
    (∀ (s' : HeapState) (addr : Nat),
      (calloc heapStart s mem number size).1 = .ok s' addr →
      ∀ k, k < number * size % 2 ^ 32 →
        (calloc heapStart s mem number size).2 (addr + k) = 0) := by
  constructor
  · unfold calloc callocSpec
    cases malloc heapStart s (number * size % 2 ^ 32) with
    | ok s2 q =>
      show (MallocOutcome.ok s2 q, writeZeros mem q (number * size % 2 ^ 32))
        = (MallocOutcome.ok s2 q, zeroRange mem q (number * size % 2 ^ 32))
      exact congrArg _ (funext fun x => writeZeros_eq_zeroRange _ mem q x)
    | oobWrite idx => rfl
    | unwrapNone => rfl
  · intro s' addr h k hk
    have hm : malloc heapStart s (number * size % 2 ^ 32) = .ok s' addr := by
      rw [calloc_fst] at h
      exact h
    unfold calloc
    simp only [hm]
    rw [writeZeros_eq_zeroRange]
    show (if addr ≤ addr + k ∧ addr + k < addr + (number * size % 2 ^ 32) then 0
      else mem (addr + k)) = 0
    rw [if_pos (by omega)]

/-- C9 witness: `calloc(64, 1)` from the initial state at heap base 8 returns
address 8, and byte 11 of the returned region reads back as zero. -/
theorem c9_calloc_zeroing_witness :
    (calloc 8 initState (fun _ => 7) 64 1).2 (8 + 3) = 0 :=
  (c9_calloc_zeroing 8 initState (fun _ => 7) 64 1).2
    ⟨(List.replicate CAP (none : Option Allocation)).set 0 (some ⟨8, 64, false⟩), 0⟩ 8
    (by decide) 3 (by decide)

/-- C4: in every reachable state, every slot at an index at most the cursor is
occupied and every slot strictly above the cursor is empty, and each entry
strictly below the cursor is followed by an entry whose address is its own
address plus its size (the invariant is preserved by `malloc`, `free` and
`calloc` since reachability is closed under them). -/
theorem c4_invariant (heapStart : Nat) (s : HeapState) (hr : Reachable heapStart s) :
    (∀ i : Nat, i < CAP →
      (((i : Int) ≤ s.allocIndex → ∃ a : Allocation, s.table[i]? = some (some a)) ∧
       (s.allocIndex < (i : Int) → s.table[i]? = some none))) ∧
    (∀ (i : Nat) (a b : Allocation), (i : Int) < s.allocIndex →
      s.table[i]? = some (some a) → s.table[i + 1]? = some (some b) →
        b.address = a.address + a.size) := by
  have hwf := wf_reachable hr
  constructor
  · intro i hi
    constructor
    · intro hle
      exact (hwf.occ i).mpr hle
    · intro hgt
      have hlen : i < s.table.length := by
        rw [hwf.len]
        exact hi
      obtain ⟨x, hx⟩ : ∃ x, s.table[i]? = some x := ⟨_, List.getElem?_eq_getElem hlen⟩
      cases x with
      | none => exact hx
      | some a =>
        exfalso
        have := (hwf.occ i).mp ⟨a, hx⟩
        omega
  · intro i a b hlt ha hb
    exact hwf.chain i a b ha hb

/-- C4 witness: the invariant evaluated at the initial state — the cursor is
`-1`, so slot 0 is empty. -/
theorem c4_invariant_witness : initState.table[0]? = some none :=
  ((c4_invariant 8 initState Reachable.init).1 0 (by decide)).2 (by decide)

/-- C1 counterexample: `malloc(0); malloc(8)` from the initial state at heap
base 8 reaches a state holding two distinct live (allocated, not yet released)
blocks that store the same address 8, refuting the pairwise-distinctness of
live addresses as stated. -/
theorem c1_counterexample :
    Reachable 8 dupAddrState ∧
      dupAddrState.table[0]? = some (some ⟨8, 0, false⟩) ∧
      dupAddrState.table[1]? = some (some ⟨8, 8, false⟩) ∧
      (Allocation.mk 8 0 false).free = false ∧ (Allocation.mk 8 8 false).free = false ∧
      (Allocation.mk 8 0 false).address = (Allocation.mk 8 8 false).address := by
  have h1 : malloc 8 initState 0 = .ok zeroSizeState 8 := by decide
  have h2 : malloc 8 zeroSizeState 8 = .ok dupAddrState 8 := by decide
  exact ⟨Reachable.malloc_step (Reachable.malloc_step Reachable.init (by norm_num) h1)
      (by norm_num) h2, by decide, by decide, rfl, rfl, rfl⟩

/-- C1 (amended): with a non-null heap base, every address returned by a
normally-returning `malloc` in a reachable state is non-null; and in every
reachable state all of whose entries have nonzero stored size, any two blocks
stored at distinct slots — in particular any two live ones — have distinct
addresses.  (The nonzero-size proviso is forced by the counterexample: a
zero-sized block from `malloc(0)` shares its address with its successor.) -/
theorem c1_live_addresses (heapStart : Nat) (s : HeapState)
    (hr : Reachable heapStart s) (h0 : heapStart ≠ 0) :
    (∀ (s' : HeapState) (n p : Nat), malloc heapStart s n = .ok s' p → p ≠ 0) ∧
    ((∀ (i : Nat) (a : Allocation), s.table[i]? = some (some a) → a.size ≠ 0) →
      ∀ (i j : Nat) (a b : Allocation), i ≠ j →
        s.table[i]? = some (some a) → s.table[j]? = some (some b) →
        a.free = false → b.free = false → a.address ≠ b.address) := by
  have hwf := wf_reachable hr
  constructor
  · intro s' n p hm
    have := malloc_ok_addr hwf hm
    omega
  · intro hnz i j a b hne ha hb _ _
    exact addr_distinct hwf hnz hne ha hb

/-- Nonzero-sizedness of all records of a table, read off a decidable
membership check. -/
lemma sizes_nonzero_of_mem {l : List (Option Allocation)}
    (h : ∀ x ∈ l, ∀ a : Allocation, x = some a → a.size ≠ 0) :
    ∀ (i : Nat) (a : Allocation), l[i]? = some (some a) → a.size ≠ 0 := by
  intro i a ha
  exact h _ (List.getElem?_mem ha) a rfl

/-- C1 witness: the amended statement evaluated after concrete 8-byte
allocations at heap base 8 — the address returned by a second `malloc` is
non-null, and the two live blocks of the two-block state have distinct
addresses. -/
theorem c1_live_addresses_witness :
    (16 : Nat) ≠ 0 ∧ (Allocation.mk 8 8 false).address ≠ (Allocation.mk 16 8 false).address := by
  have he1 : malloc 8 initState 8 =
      .ok ⟨(List.replicate CAP (none : Option Allocation)).set 0 (some ⟨8, 8, false⟩), 0⟩ 8 := by
    decide
  have he2 : malloc 8
      ⟨(List.replicate CAP (none : Option Allocation)).set 0 (some ⟨8, 8, false⟩), 0⟩ 8 =
      .ok ⟨((List.replicate CAP (none : Option Allocation)).set 0 (some ⟨8, 8, false⟩)).set 1
          (some ⟨16, 8, false⟩), 1⟩ 16 := by
    decide
  have hr1 : Reachable 8
      (⟨(List.replicate CAP (none : Option Allocation)).set 0 (some ⟨8, 8, false⟩),
        0⟩ : HeapState) :=
    Reachable.malloc_step Reachable.init (by norm_num) he1
  have hr2 : Reachable 8
      (⟨((List.replicate CAP (none : Option Allocation)).set 0 (some ⟨8, 8, false⟩)).set 1
          (some ⟨16, 8, false⟩), 1⟩ : HeapState) :=
    Reachable.malloc_step hr1 (by norm_num) he2
  constructor
  · exact (c1_live_addresses 8 _ hr1 (by norm_num)).1
      ⟨((List.replicate CAP (none : Option Allocation)).set 0 (some ⟨8, 8, false⟩)).set 1
          (some ⟨16, 8, false⟩), 1⟩ 8 16 (by decide)
  · exact (c1_live_addresses 8 _ hr2 (by norm_num)).2 (sizes_nonzero_of_mem (by decide)) 0 1
      ⟨8, 8, false⟩ ⟨16, 8, false⟩ (by omega) (by decide) (by decide) rfl rfl

/-- C5 counterexample: (1) from the initial state (entry count 0) the sequence
`malloc(8); free(returned); malloc(8)` ends with entry count 1 — the count does
not return to its pre-sequence value, it ends where a single `malloc` leaves
it; (2) in the reachable state holding a zero-sized block from `malloc(0)`,
the same sequence hands back address 16 instead of the first call's address 8,
because `free` marks the zero-sized alias of address 8 instead of the block
just allocated. -/
theorem c5_counterexample :
    (malloc 8 initState 8 =
        .ok ⟨(List.replicate CAP (none : Option Allocation)).set 0 (some ⟨8, 8, false⟩), 0⟩ 8 ∧
      free ⟨(List.replicate CAP (none : Option Allocation)).set 0 (some ⟨8, 8, false⟩), 0⟩ 8 =
        .ok ⟨((List.replicate CAP (none : Option Allocation)).set 0
            (some ⟨8, 8, false⟩)).set 0 none, -1⟩ ∧
      malloc 8 ⟨((List.replicate CAP (none : Option Allocation)).set 0
          (some ⟨8, 8, false⟩)).set 0 none, -1⟩ 8 =
        .ok ⟨(((List.replicate CAP (none : Option Allocation)).set 0
            (some ⟨8, 8, false⟩)).set 0 none).set 0 (some ⟨8, 8, false⟩), 0⟩ 8 ∧
      occupiedCount initState = 0 ∧
      occupiedCount ⟨(((List.replicate CAP (none : Option Allocation)).set 0
          (some ⟨8, 8, false⟩)).set 0 none).set 0 (some ⟨8, 8, false⟩), 0⟩ = 1) ∧
    (Reachable 8 zeroSizeState ∧
      malloc 8 zeroSizeState 8 = .ok dupAddrState 8 ∧
      free dupAddrState 8 =
        .ok ⟨dupAddrState.table.set 0 (some ⟨8, 0, true⟩), 1⟩ ∧
      malloc 8 ⟨dupAddrState.table.set 0 (some ⟨8, 0, true⟩), 1⟩ 8 =
        .ok ⟨(dupAddrState.table.set 0 (some ⟨8, 0, true⟩)).set 2 (some ⟨16, 8, false⟩), 2⟩ 16) := by
  have hz : malloc 8 initState 0 = .ok zeroSizeState 8 := by decide
  refine ⟨⟨by decide, by decide, by decide, by decide, by decide⟩,
    ⟨Reachable.malloc_step Reachable.init (by norm_num) hz, by decide, by decide, by decide⟩⟩

/-- C5 (amended): in every reachable state with a non-null heap base, all of
whose entries have nonzero stored size and whose cursor is below the last
slot, and for every request size: `malloc(S); free(returned); malloc(S)`
returns the identical address both times, and the entry count after the
sequence equals the entry count after the first `malloc` (the sequence as a
whole changes the count exactly as a single `malloc` does — not necessarily
the pre-sequence count, which the plain bump-allocation case exceeds by one);
in particular `free` of the entry at the cursor empties that slot and
decrements the cursor. -/
theorem c5_lifo_reuse :
    (∀ (heapStart : Nat) (s : HeapState) (n : Nat), Reachable heapStart s →
      heapStart ≠ 0 →
      (∀ (i : Nat) (a : Allocation), s.table[i]? = some (some a) → a.size ≠ 0) →
      s.allocIndex + 1 < (CAP : Int) →
      ∃ (s₁ s₂ s₃ : HeapState) (p : Nat),
        malloc heapStart s n = .ok s₁ p ∧ free s₁ p = .ok s₂ ∧
        malloc heapStart s₂ n = .ok s₃ p ∧ occupiedCount s₃ = occupiedCount s₁) ∧
    (∀ (t : HeapState) (ptr i : Nat) (a : Allocation), ptr ≠ 0 →
      scanForPtr t.table ptr = .found i a → (i : Int) = t.allocIndex →
      free t ptr = .ok ⟨t.table.set i none, t.allocIndex - 1⟩) := by
  constructor
  case right =>
    intro t ptr i a hp hscan hi
    exact free_eq_found_top hp hscan hi
  intro hs s n hr h0 hnz hcap
  have hwf := wf_reachable hr
  rw [CAP_eq] at hcap
  have hub := hwf.ub
  rw [CAP_eq] at hub
  cases hf : findFreeBlock s.table (alignedSize n) with
  | some ia =>
    obtain ⟨i, a⟩ := ia
    obtain ⟨hmem, hfit, hfirst⟩ := ffb_some_spec hf
    have hiLen : i < s.table.length := lt_length_of_getElem? hmem
    have haGe : hs ≤ a.address := hwf.addrLB _ _ hmem
    have ha0 : a.address ≠ 0 := by omega
    have hiCur : (i : Int) ≤ s.allocIndex := (hwf.occ i).mp ⟨a, hmem⟩
    have hm1 : malloc hs s n =
        .ok ⟨s.table.set i (some ⟨a.address, a.size, false⟩), s.allocIndex⟩ a.address :=
      malloc_eq_reuse hf ha0
    have hscan1 : scanForPtr (s.table.set i (some ⟨a.address, a.size, false⟩)) a.address
        = .found i ⟨a.address, a.size, false⟩ := by
      refine scan_of_first ?_ (getElem?_set_self hiLen) rfl
      intro j hj
      obtain ⟨b, hb⟩ := (hwf.occ j).mpr (by omega)
      refine ⟨b, ?_, ?_⟩
      · rw [getElem?_set_ne _ _ (by omega)]
        exact hb
      · exact addr_distinct hwf hnz (by omega) hb hmem
    by_cases hitop : (i : Int) = s.allocIndex
    · -- the reused block sits at the cursor: `free` removes it and the second
      -- `malloc` bump-allocates it back at the very same address
      have hfree2 : free ⟨s.table.set i (some ⟨a.address, a.size, false⟩), s.allocIndex⟩
          a.address
          = .ok ⟨(s.table.set i (some ⟨a.address, a.size, false⟩)).set i none,
              s.allocIndex - 1⟩ :=
        @free_eq_found_top ⟨s.table.set i (some ⟨a.address, a.size, false⟩), s.allocIndex⟩
          a.address i ⟨a.address, a.size, false⟩ ha0 hscan1 hitop
      have hiLen2 : i < (s.table.set i (some ⟨a.address, a.size, false⟩)).length := by
        rw [List.length_set]
        exact hiLen
      have hf2 : findFreeBlock
          ((s.table.set i (some ⟨a.address, a.size, false⟩)).set i none) (alignedSize n)
          = none := by
        rw [ffb_none_iff]
        intro j b hb
        by_cases hij : i = j
        · subst hij
          rw [getElem?_set_self hiLen2] at hb
          simp at hb
        · rw [getElem?_set_ne _ _ hij, getElem?_set_ne _ _ hij] at hb
          exact hfirst j (by have := (hwf.occ j).mp ⟨b, hb⟩; omega) b hb
      by_cases hi0 : i = 0
      · subst hi0
        have hbase : a.address = hs := hwf.base a hmem
        have hm3 : malloc hs ⟨(s.table.set 0 (some ⟨a.address, a.size, false⟩)).set 0 none,
            s.allocIndex - 1⟩ n
            = .ok ⟨((s.table.set 0 (some ⟨a.address, a.size, false⟩)).set 0 none).set 0
                (some ⟨hs, alignedSize n, false⟩), 0⟩ hs :=
          (@malloc_eq_append hs ⟨(s.table.set 0 (some ⟨a.address, a.size, false⟩)).set 0 none,
              s.allocIndex - 1⟩ n hf2).trans
            (@append_eq_empty hs
              ⟨(s.table.set 0 (some ⟨a.address, a.size, false⟩)).set 0 none,
                s.allocIndex - 1⟩ (alignedSize n) (by dsimp only; omega))
        refine ⟨_, _, _, a.address, hm1, hfree2,
          hm3.trans (congrArg (MallocOutcome.ok _) hbase.symm), ?_⟩
        unfold occupiedCount
        dsimp only
        rw [List.set_set, List.set_set,
          @countP_set_same (Option Allocation) (fun x => x.isSome) s.table 0 (some a)
            (some ⟨hs, alignedSize n, false⟩) hmem rfl,
          @countP_set_same (Option Allocation) (fun x => x.isSome) s.table 0 (some a)
            (some ⟨a.address, a.size, false⟩) hmem rfl]
      · obtain ⟨t, ht⟩ := (hwf.occ (i - 1)).mpr (by omega)
        have hchain : a.address = t.address + t.size := by
          have := hwf.chain (i - 1) t a ht (by rw [show i - 1 + 1 = i from by omega]; exact hmem)
          omega
        have hcap2 : i - 1 + 1 < CAP := by
          rw [CAP_eq]
          omega
        have ht2 : ((s.table.set i (some ⟨a.address, a.size, false⟩)).set i none)[i - 1]?
            = some (some t) := by
          rw [getElem?_set_ne _ _ (by omega), getElem?_set_ne _ _ (by omega)]
          exact ht
        have hm3 : malloc hs ⟨(s.table.set i (some ⟨a.address, a.size, false⟩)).set i none,
            s.allocIndex - 1⟩ n
            = .ok ⟨((s.table.set i (some ⟨a.address, a.size, false⟩)).set i none).set (i - 1 + 1)
                (some ⟨t.address + t.size, alignedSize n, false⟩), s.allocIndex - 1 + 1⟩
              (t.address + t.size) :=
          (@malloc_eq_append hs ⟨(s.table.set i (some ⟨a.address, a.size, false⟩)).set i none,
              s.allocIndex - 1⟩ n hf2).trans
            (@append_eq_top hs
              ⟨(s.table.set i (some ⟨a.address, a.size, false⟩)).set i none, s.allocIndex - 1⟩
              (alignedSize n) (i - 1) t (by dsimp only; omega) ht2 hcap2)
        refine ⟨_, _, _, a.address, hm1, hfree2,
          hm3.trans (congrArg (MallocOutcome.ok _) hchain.symm), ?_⟩
        unfold occupiedCount
        dsimp only
        rw [show i - 1 + 1 = i from by omega, List.set_set, List.set_set,
          @countP_set_same (Option Allocation) (fun x => x.isSome) s.table i (some a)
            (some ⟨t.address + t.size, alignedSize n, false⟩) hmem rfl,
          @countP_set_same (Option Allocation) (fun x => x.isSome) s.table i (some a)
            (some ⟨a.address, a.size, false⟩) hmem rfl]
    · -- the reused block sits below the cursor: `free` re-marks it free,
      -- restoring the original state, and the second `malloc` repeats the first
      have ha_free : a.free = true := hfit.1
      have hfree2 : free ⟨s.table.set i (some ⟨a.address, a.size, false⟩), s.allocIndex⟩
          a.address = .ok s := by
        rw [@free_eq_found_mid ⟨s.table.set i (some ⟨a.address, a.size, false⟩), s.allocIndex⟩
          a.address i ⟨a.address, a.size, false⟩ ha0 hscan1 hitop]
        dsimp only
        rw [List.set_set, alloc_eta_free ha_free, set_getElem?_self hmem]
      exact ⟨_, s, _, a.address, hm1, hfree2, hm1, rfl⟩
  | none =>
    by_cases hneg : s.allocIndex = -1
    · -- empty table: allocate at the heap base, remove it again, re-allocate it
      have hm1 : malloc hs s n =
          .ok ⟨s.table.set 0 (some ⟨hs, alignedSize n, false⟩), 0⟩ hs :=
        (malloc_eq_append hf).trans (append_eq_empty hneg)
      have hlen0 : 0 < s.table.length := by
        rw [hwf.len, CAP_eq]
        omega
      have hscan1 : scanForPtr (s.table.set 0 (some ⟨hs, alignedSize n, false⟩)) hs
          = .found 0 ⟨hs, alignedSize n, false⟩ :=
        scan_of_first (fun j hj => absurd hj (Nat.not_lt_zero j)) (getElem?_set_self hlen0) rfl
      have hfree2 : free ⟨s.table.set 0 (some ⟨hs, alignedSize n, false⟩), 0⟩ hs
          = .ok ⟨(s.table.set 0 (some ⟨hs, alignedSize n, false⟩)).set 0 none, 0 - 1⟩ :=
        @free_eq_found_top ⟨s.table.set 0 (some ⟨hs, alignedSize n, false⟩), 0⟩ hs 0
          ⟨hs, alignedSize n, false⟩ h0 hscan1 (by dsimp only; decide)
      have hlen0b : 0 < (s.table.set 0 (some ⟨hs, alignedSize n, false⟩)).length := by
        rw [List.length_set]
        exact hlen0
      have hf2 : findFreeBlock ((s.table.set 0 (some ⟨hs, alignedSize n, false⟩)).set 0 none)
          (alignedSize n) = none := by
        rw [ffb_none_iff]
        intro j b hb
        by_cases hj : (0 : Nat) = j
        · subst hj
          rw [getElem?_set_self hlen0b] at hb
          simp at hb
        · rw [getElem?_set_ne _ _ hj, getElem?_set_ne _ _ hj] at hb
          have := (hwf.occ j).mp ⟨b, hb⟩
          rw [hneg] at this
          exact absurd this (by omega)
      have hm3 : malloc hs ⟨(s.table.set 0 (some ⟨hs, alignedSize n, false⟩)).set 0 none,
          0 - 1⟩ n
          = .ok ⟨((s.table.set 0 (some ⟨hs, alignedSize n, false⟩)).set 0 none).set 0
              (some ⟨hs, alignedSize n, false⟩), 0⟩ hs :=
        (@malloc_eq_append hs ⟨(s.table.set 0 (some ⟨hs, alignedSize n, false⟩)).set 0 none,
            0 - 1⟩ n hf2).trans
          (@append_eq_empty hs
            ⟨(s.table.set 0 (some ⟨hs, alignedSize n, false⟩)).set 0 none, 0 - 1⟩
            (alignedSize n) (by dsimp only; decide))
      refine ⟨_, _, _, hs, hm1, hfree2, hm3, ?_⟩
      unfold occupiedCount
      dsimp only
      rw [List.set_set, List.set_set]
    · -- bump allocation past the top block, removal, identical re-allocation
      have hmc : s.allocIndex = (s.allocIndex.toNat : Int) := by
        have := hwf.lb
        omega
      obtain ⟨top, htop⟩ := (hwf.occ s.allocIndex.toNat).mpr (by omega)
      have hcap1 : s.allocIndex.toNat + 1 < CAP := by
        rw [CAP_eq]
        omega
      have hm1 : malloc hs s n
          = .ok ⟨s.table.set (s.allocIndex.toNat + 1)
              (some ⟨top.address + top.size, alignedSize n, false⟩), s.allocIndex + 1⟩
            (top.address + top.size) :=
        (malloc_eq_append hf).trans (append_eq_top hmc htop hcap1)
      have htopGe : hs ≤ top.address := hwf.addrLB _ _ htop
      have htopSz : top.size ≠ 0 := hnz _ _ htop
      have hq0 : top.address + top.size ≠ 0 := by omega
      have hlen : s.allocIndex.toNat + 1 < s.table.length := by
        rw [hwf.len]
        exact hcap1
      have hscan1 : scanForPtr (s.table.set (s.allocIndex.toNat + 1)
          (some ⟨top.address + top.size, alignedSize n, false⟩)) (top.address + top.size)
          = .found (s.allocIndex.toNat + 1) ⟨top.address + top.size, alignedSize n, false⟩ := by
        refine scan_of_first ?_ (getElem?_set_self hlen) rfl
        intro j hj
        obtain ⟨b, hb⟩ := (hwf.occ j).mpr (by omega)
        refine ⟨b, ?_, ?_⟩
        · rw [getElem?_set_ne _ _ (by omega)]
          exact hb
        · by_cases hjm : j = s.allocIndex.toNat
          · subst hjm
            obtain rfl : b = top := by simpa using hb.symm.trans htop
            omega
          · have hlt := addr_lt_of_lt hwf hnz (s.allocIndex.toNat - j - 1) j b top hb
              (by rw [show j + (s.allocIndex.toNat - j - 1) + 1 = s.allocIndex.toNat
                from by omega]; exact htop)
            omega
      have hfree2 : free ⟨s.table.set (s.allocIndex.toNat + 1)
          (some ⟨top.address + top.size, alignedSize n, false⟩), s.allocIndex + 1⟩
          (top.address + top.size)
          = .ok ⟨(s.table.set (s.allocIndex.toNat + 1)
              (some ⟨top.address + top.size, alignedSize n, false⟩)).set
                (s.allocIndex.toNat + 1) none, s.allocIndex + 1 - 1⟩ :=
        @free_eq_found_top ⟨s.table.set (s.allocIndex.toNat + 1)
            (some ⟨top.address + top.size, alignedSize n, false⟩), s.allocIndex + 1⟩
          (top.address + top.size) (s.allocIndex.toNat + 1)
          ⟨top.address + top.size, alignedSize n, false⟩ hq0 hscan1 (by dsimp only; omega)
      have hlenB : s.allocIndex.toNat + 1 < (s.table.set (s.allocIndex.toNat + 1)
          (some ⟨top.address + top.size, alignedSize n, false⟩)).length := by
        rw [List.length_set]
        exact hlen
      have hf2 : findFreeBlock ((s.table.set (s.allocIndex.toNat + 1)
          (some ⟨top.address + top.size, alignedSize n, false⟩)).set
            (s.allocIndex.toNat + 1) none) (alignedSize n) = none := by
        rw [ffb_none_iff]
        intro j b hb
        by_cases hj : s.allocIndex.toNat + 1 = j
        · subst hj
          rw [getElem?_set_self hlenB] at hb
          simp at hb
        · rw [getElem?_set_ne _ _ hj, getElem?_set_ne _ _ hj] at hb
          exact (ffb_none_iff _ _).mp hf j b hb
      have htop2 : ((s.table.set (s.allocIndex.toNat + 1)
          (some ⟨top.address + top.size, alignedSize n, false⟩)).set
            (s.allocIndex.toNat + 1) none)[s.allocIndex.toNat]? = some (some top) := by
        rw [getElem?_set_ne _ _ (by omega), getElem?_set_ne _ _ (by omega)]
        exact htop
      have hm3 : malloc hs ⟨(s.table.set (s.allocIndex.toNat + 1)
          (some ⟨top.address + top.size, alignedSize n, false⟩)).set
            (s.allocIndex.toNat + 1) none, s.allocIndex + 1 - 1⟩ n
          = .ok ⟨((s.table.set (s.allocIndex.toNat + 1)
              (some ⟨top.address + top.size, alignedSize n, false⟩)).set
                (s.allocIndex.toNat + 1) none).set (s.allocIndex.toNat + 1)
              (some ⟨top.address + top.size, alignedSize n, false⟩),
              s.allocIndex + 1 - 1 + 1⟩ (top.address + top.size) :=
        (@malloc_eq_append hs ⟨(s.table.set (s.allocIndex.toNat + 1)
            (some ⟨top.address + top.size, alignedSize n, false⟩)).set
              (s.allocIndex.toNat + 1) none, s.allocIndex + 1 - 1⟩ n hf2).trans
          (@append_eq_top hs ⟨(s.table.set (s.allocIndex.toNat + 1)
              (some ⟨top.address + top.size, alignedSize n, false⟩)).set
                (s.allocIndex.toNat + 1) none, s.allocIndex + 1 - 1⟩
            (alignedSize n) s.allocIndex.toNat top (by dsimp only; omega) htop2 hcap1)
      refine ⟨_, _, _, top.address + top.size, hm1, hfree2, hm3, ?_⟩
      unfold occupiedCount
      dsimp only
      rw [List.set_set, List.set_set]

/-- C5 witness: the amended statement evaluated at the reachable `demoState` —
the sequence exists with identical addresses, and releasing the top block of
`demoState` empties slot 1 and moves the cursor down to 0. -/
theorem c5_lifo_reuse_witness :
    (∃ (s₁ s₂ s₃ : HeapState) (p : Nat),
      malloc 8 demoState 8 = .ok s₁ p ∧ free s₁ p = .ok s₂ ∧
      malloc 8 s₂ 8 = .ok s₃ p ∧ occupiedCount s₃ = occupiedCount s₁) ∧
    free demoState 24 = .ok ⟨demoState.table.set 1 none, demoState.allocIndex - 1⟩ := by
  have h1 : malloc 8 initState 16 =
      .ok ⟨(List.replicate CAP (none : Option Allocation)).set 0 (some ⟨8, 16, false⟩), 0⟩ 8 := by
    decide
  have h2 : malloc 8 ⟨(List.replicate CAP (none : Option Allocation)).set 0
      (some ⟨8, 16, false⟩), 0⟩ 8 =
      .ok ⟨((List.replicate CAP (none : Option Allocation)).set 0
          (some ⟨8, 16, false⟩)).set 1 (some ⟨24, 8, false⟩), 1⟩ 24 := by
    decide
  have h3 : free ⟨((List.replicate CAP (none : Option Allocation)).set 0
      (some ⟨8, 16, false⟩)).set 1 (some ⟨24, 8, false⟩), 1⟩ 8 = .ok demoState := by
    decide
  have hr : Reachable 8 demoState :=
    Reachable.free_step (Reachable.malloc_step (Reachable.malloc_step Reachable.init
      (by norm_num) h1) (by norm_num) h2) h3
  exact ⟨c5_lifo_reuse.1 8 demoState 8 hr (by norm_num) (sizes_nonzero_of_mem (by decide))
      (by decide),
    c5_lifo_reuse.2 demoState 24 1 ⟨24, 8, false⟩ (by decide) (by decide) (by decide)⟩

/-- C10: `malloc` checks nothing against the table's capacity of 128: the state
reached by 128 successive allocations has all 128 slots occupied by live
blocks, no reusable free entry, and one further `malloc` attempts the table
write at index 128 — outside the bounds `0..127` of the table. -/
theorem c10_table_overflow :
    Reachable 8 fullState ∧ occupiedCount fullState = 128 ∧
      findFreeBlock fullState.table (alignedSize 8) = none ∧
      malloc 8 fullState 8 = .oobWrite 128 ∧ CAP ≤ 128 := by
  refine ⟨?_, by decide, by decide, by decide, by decide⟩
  have hsome : (mallocN 8 initState 8 128).isSome = true := by decide
  exact mallocN_reachable (by norm_num) 128 initState fullState Reachable.init
    (option_eq_some_getD initState hsome)

end EspAlloc
